import Mathlib

/-!
Shallow embedding of the QIR emitter found in
`src/QirTools/pyqir/qirlib/src/emit/mod.rs`.

The emitter walks a `SemanticModel` (quantum registers, classical registers,
instructions) and emits LLVM-IR level calls: qubit allocations, result-array
allocations, per-instruction intrinsic calls, qubit releases, and a final
return.  We model the emitted IR as a trace of abstract operations (`IROp`),
opaque runtime values as natural-number handles issued by a fresh counter,
and Rust's `BTreeMap<String, _>` as an association list kept strictly sorted
by key (Rust `BTreeMap` iterates in ascending key order and `insert`
overwrites the value at an existing key).

The data model (`SemanticModel` and friends) lives in the repository's
`interop` module, which is not part of the sources at hand; it is modelled
from the spec (section 3).  Likewise the `qir::*` helper functions
(`emit_allocate`, `emit_array_allocate1d`, `emit_array_1d`, `set_elements`,
`emit_empty_result_array_allocate1d`, `instructions::emit`) are modelled from
the spec (sections 4.2-4.4) as single trace operations / name resolutions.
The control flow of `Emitter::write`, `write_qubits`, `write_registers`,
`write_instructions` and `free_qubits` is translated directly from the
source.
-/

namespace QirEmit

/-- Modelled from the spec: a quantum register entry (`interop` module is not
in the sources); base `name` plus an `index` identifying one qubit. -/
structure QuantumRegister where
  name : String
  index : Nat
  deriving DecidableEq, Repr, Inhabited

/-- Modelled from the spec: a classical register with base `name` and a bit
width `size`. -/
structure ClassicalRegister where
  name : String
  size : Nat
  deriving DecidableEq, Repr, Inhabited

/-- Modelled from the spec: the closed instruction set seen in the source's
tests (`X`, `H`, `Cx`, `M`, `Reset`); operands are name strings resolved at
emission time. -/
inductive Instruction where
  | X (qubit : String)
  | H (qubit : String)
  | Cx (control target : String)
  | M (qubit target : String)
  | Reset (qubit : String)
  deriving DecidableEq, Repr, Inhabited

/-- Modelled from the spec: the program model, owning ordered register and
instruction sequences and a program name. -/
structure SemanticModel where
  name : String
  qubits : List QuantumRegister
  registers : List ClassicalRegister
  instructions : List Instruction
  deriving DecidableEq, Repr, Inhabited

/-- Abstract IR operations appearing in the emitted entry function, in
emission order.  Opaque runtime values are `Nat` handles. -/
inductive IROp where
  | allocateQubit (name : String) (handle : Nat)
  | releaseQubit (handle : Nat)
  | arrayAlloc1d (elemSize count : Nat) (name : String) (handle : Nat)
  | subArrayAlloc (name : String) (size : Nat) (handle : Nat)
  | emptyArrayAlloc (name : String) (handle : Nat)
  | setElement (arr idx elem : Nat)
  | callX (qubit : Nat)
  | callH (qubit : Nat)
  | callCx (control target : Nat)
  | callM (qubit : Nat) (target : String)
  | callReset (qubit : Nat)
  | ret (handle : Nat)
  deriving DecidableEq, Repr

/-- The length, in elements, of the array allocated by an allocation op
(`none` for non-allocating ops).  The empty result array allocated by
`emit_empty_result_array_allocate1d` is zero-length (spec, section 4.3). -/
def allocLength : IROp → Option Nat
  | .arrayAlloc1d _ count _ _ => some count
  | .subArrayAlloc _ size _ => some size
  | .emptyArrayAlloc _ _ => some 0
  | _ => none

/-- Emission state: the fresh-handle counter and the trace of IR operations
emitted so far (the builder cursor appends at the end). -/
structure EmitSt where
  next : Nat
  trace : List IROp
  deriving DecidableEq, Repr

/-- The qubit / register tables: Rust `BTreeMap<String, BasicValueEnum>`,
modelled as an association list sorted strictly ascending by key. -/
abbrev Table := List (String × Nat)

/-- Lexicographic comparison of character lists.  Rust's `Ord` for `String`
compares UTF-8 bytes lexicographically, which orders strings exactly as
code-point-wise lexicographic comparison does (UTF-8 preserves code-point
order), so this is the `BTreeMap<String, _>` key order. -/
def charsLt : List Char → List Char → Bool
  | _, [] => false
  | [], _ :: _ => true
  | a :: as, b :: bs => if a < b then true else if a = b then charsLt as bs else false

/-- The `BTreeMap<String, _>` key order on strings. -/
def strLt (a b : String) : Bool :=
  charsLt a.data b.data

/-- Ordered insert with overwrite: the semantics of `BTreeMap::insert`
(replaces the value at an existing key, keeps keys sorted). -/
def btreeInsert (k : String) (v : Nat) : Table → Table
  | [] => [(k, v)]
  | (k', v') :: rest =>
    if strLt k k' then (k, v) :: (k', v') :: rest
    else if k = k' then (k, v) :: rest
    else (k', v') :: btreeInsert k v rest

/-- Lookup: the semantics of `BTreeMap::get`. -/
def btreeFind (k : String) : Table → Option Nat
  | [] => none
  | (k', v) :: rest => if k = k' then some v else btreeFind k rest

/-- The indexed name of a quantum register entry:
Rust `format!("{}{}", &reg.name[..], reg.index)`. -/
def indexedName (reg : QuantumRegister) : String :=
  reg.name ++ toString reg.index

/-- Modelled from the spec: `qir::qubits::emit_allocate` calls the runtime
qubit-allocation function and yields an opaque qubit value; here a fresh
handle plus an `allocateQubit` trace op. -/
def allocateQubit (name : String) (s : EmitSt) : Nat × EmitSt :=
  (s.next, ⟨s.next + 1, s.trace ++ [.allocateQubit name s.next]⟩)

/-- Translation of `Emitter::write_qubits`: for each quantum register entry,
in model order, compute the indexed name, allocate a qubit, and insert it
into the `BTreeMap` under the indexed name (overwriting any earlier entry
with the same name). -/
def writeQubits : List QuantumRegister → Table → EmitSt → Table × EmitSt
  | [], tbl, s => (tbl, s)
  | reg :: rest, tbl, s =>
    let nm := indexedName reg
    let (h, s1) := allocateQubit nm s
    writeQubits rest (btreeInsert nm h tbl) s1

/-- Translation of `Emitter::free_qubits`: iterate the qubit table (ascending
key order) and emit one release call per entry's value. -/
def freeQubits (tbl : Table) (s : EmitSt) : EmitSt :=
  ⟨s.next, s.trace ++ tbl.map (fun p => IROp.releaseQubit p.2)⟩

/-- Modelled from the spec: `qir::array1d::set_elements` stores each
sub-array into the top-level array, element i getting sub-array i, in the
order the sub-arrays were allocated. -/
def setElements (arr : Nat) (subs : List Nat) (s : EmitSt) : EmitSt :=
  ⟨s.next, s.trace ++ subs.enum.map (fun p => IROp.setElement arr p.1 p.2)⟩

/-- The per-register loop body of `Emitter::write_registers`: for each
classical register, in model order, allocate a result array of its declared
width named after the register (`qir::array1d::emit_array_1d`, modelled from
the spec as a `subArrayAlloc` op), push its value, and insert it into the
table under the register's name. -/
def writeSubRegisters : List ClassicalRegister → Table → EmitSt →
    Table × List Nat × EmitSt
  | [], tbl, s => (tbl, [], s)
  | reg :: rest, tbl, s =>
    let h := s.next
    let s1 : EmitSt := ⟨s.next + 1, s.trace ++ [.subArrayAlloc reg.name reg.size h]⟩
    let r := writeSubRegisters rest (btreeInsert reg.name h tbl) s1
    (r.1, h :: r.2.1, r.2.2)

/-- Translation of `Emitter::write_registers`.  If the model has classical
registers: allocate the top-level `"results"` array with element size 8 and
one slot per classical register, allocate the per-register sub-arrays in
model order, then set the top-level elements.  Otherwise allocate a single
empty result array named `"results"`
(`qir::array1d::emit_empty_result_array_allocate1d`, modelled from the spec
as a zero-length allocation). -/
def writeRegisters (regs : List ClassicalRegister) (s : EmitSt) : Table × EmitSt :=
  if 0 < regs.length then
    let results := s.next
    let s1 : EmitSt :=
      ⟨s.next + 1, s.trace ++ [.arrayAlloc1d 8 regs.length "results" results]⟩
    let r := writeSubRegisters regs (btreeInsert "results" results []) s1
    (r.1, setElements results r.2.1 r.2.2)
  else
    let results := s.next
    (btreeInsert "results" results [],
      ⟨s.next + 1, s.trace ++ [.emptyArrayAlloc "results" results]⟩)

/-- Modelled from the spec: the addressable classical bit names, one per bit
of each classical register, written base name ++ decimal bit index (the
addressing scheme used by the source's tests, e.g. `"output_0"`). -/
def classicalBitNames (regs : List ClassicalRegister) : List String :=
  regs.flatMap (fun r => (List.range r.size).map (fun i => r.name ++ toString i))

/-- Name resolution of a qubit operand against the qubit table. -/
def resolveQubit (qubits : Table) (name : String) : Option Nat :=
  btreeFind name qubits

/-- Modelled from the spec: `qir::instructions::emit` dispatches one
instruction to its IR call sequence, resolving qubit names against the qubit
table and a measurement target against the classical bit names; a failed
resolution is fatal (`none`). -/
def emitInstruction (qubits : Table) (targets : List String) :
    Instruction → Option (List IROp)
  | .X q => (resolveQubit qubits q).map (fun h => [IROp.callX h])
  | .H q => (resolveQubit qubits q).map (fun h => [IROp.callH h])
  | .Cx c t => do
    let hc ← resolveQubit qubits c
    let ht ← resolveQubit qubits t
    pure [IROp.callCx hc ht]
  | .M q t => do
    let hq ← resolveQubit qubits q
    if t ∈ targets then pure [IROp.callM hq t] else none
  | .Reset q => (resolveQubit qubits q).map (fun h => [IROp.callReset h])

/-- Translation of `Emitter::write_instructions`: emit each instruction's
call sequence in model order; a name-resolution failure aborts immediately
(the Rust code panics inside `qir::instructions::emit`), so nothing after
the failing instruction is emitted.  Returns the emitted calls and whether
all instructions were emitted. -/
def writeInstructions (qubits : Table) (targets : List String) :
    List Instruction → List IROp × Bool
  | [] => ([], true)
  | inst :: rest =>
    match emitInstruction qubits targets inst with
    | none => ([], false)
    | some ops =>
      let (more, ok) := writeInstructions qubits targets rest
      (ops ++ more, ok)

/-- Outcome of one emission: a complete trace, or an abort during
instruction emission (name-resolution failure), or an abort at the
`registers.get("results").unwrap()` in `Emitter::write`. -/
inductive EmitOutcome where
  | ok (trace : List IROp)
  | nameResolutionFailure (trace : List IROp)
  | resultsMissing (trace : List IROp)
  deriving DecidableEq, Repr

/-- The initial emission state of one `Emitter::write` call. -/
def initSt : EmitSt := ⟨0, []⟩

/-- The qubit-allocation phase of `Emitter::write`. -/
def qubitsPhase (m : SemanticModel) : Table × EmitSt :=
  writeQubits m.qubits [] initSt

/-- The register-allocation phase of `Emitter::write`. -/
def registersPhase (m : SemanticModel) : Table × EmitSt :=
  writeRegisters m.registers (qubitsPhase m).2

/-- The call sequence one instruction contributes (empty if it fails to
resolve). -/
def instructionOps (m : SemanticModel) (inst : Instruction) : List IROp :=
  (emitInstruction (qubitsPhase m).1 (classicalBitNames m.registers) inst).getD []

/-- Translation of the body of `Emitter::write`: allocate qubits, allocate
registers, emit instructions, release qubits, look up `"results"` and build
the return.  An instruction name-resolution failure aborts before the
release/return; a missing `"results"` entry aborts at the `unwrap`. -/
def emitTrace (m : SemanticModel) : EmitOutcome :=
  let qtbl := (qubitsPhase m).1
  let rtbl := (registersPhase m).1
  let s2 := (registersPhase m).2
  let res := writeInstructions qtbl (classicalBitNames m.registers) m.instructions
  if res.2 then
    let s4 := freeQubits qtbl ⟨s2.next, s2.trace ++ res.1⟩
    match btreeFind "results" rtbl with
    | some out => .ok (s4.trace ++ [IROp.ret out])
    | none => .resultsMissing s4.trace
  else .nameResolutionFailure (s2.trace ++ res.1)

/-- Translation of `Emitter::write` including serialization: on success the
module (program name and body trace) is written to the given path; on abort
no output is produced. -/
def write (m : SemanticModel) (fileName : String) :
    Option (String × String × List IROp) :=
  match emitTrace m with
  | .ok tr => some (fileName, m.name, tr)
  | _ => none

/-- The handles of all emitted qubit allocations, in emission order. -/
def allocatedHandles (tr : List IROp) : List Nat :=
  tr.filterMap (fun op => match op with
    | .allocateQubit _ h => some h
    | _ => none)

/-- The handles of all emitted qubit releases, in emission order. -/
def releasedHandles (tr : List IROp) : List Nat :=
  tr.filterMap (fun op => match op with
    | .releaseQubit h => some h
    | _ => none)


/-- The qubit-allocation calls emitted for a register list, handles issued
consecutively from `base`. -/
def allocOps : List QuantumRegister → Nat → List IROp
  | [], _ => []
  | q :: rest, base => IROp.allocateQubit (indexedName q) base :: allocOps rest (base + 1)

/-- The sub-array allocation calls emitted for a classical register list,
handles issued consecutively from `base`. -/
def subAllocOps : List ClassicalRegister → Nat → List IROp
  | [], _ => []
  | r :: rest, base => IROp.subArrayAlloc r.name r.size base :: subAllocOps rest (base + 1)

/-- The element-store calls populating array `arr`: element `idx` receives
handle `base`, element `idx + 1` receives `base + 1`, and so on. -/
def setOps (arr : Nat) : Nat → Nat → Nat → List IROp
  | _, _, 0 => []
  | idx, base, n + 1 => IROp.setElement arr idx base :: setOps arr (idx + 1) (base + 1) n

/-- Whether an emission aborted at the `registers.get("results").unwrap()`. -/
def isResultsMissing : EmitOutcome → Bool
  | .resultsMissing _ => true
  | _ => false

/-- The trace emitted up to completion or abort. -/
def outcomeTrace : EmitOutcome → List IROp
  | .ok tr => tr
  | .nameResolutionFailure tr => tr
  | .resultsMissing tr => tr

/-- The handle allocated for the LAST register entry whose indexed name is
`nm`, when handles are issued consecutively from `base` (later entries win,
mirroring `BTreeMap::insert` overwrite). -/
def findLastAlloc (nm : String) : List QuantumRegister → Nat → Option Nat
  | [], _ => none
  | q :: rest, base =>
    match findLastAlloc nm rest (base + 1) with
    | some h => some h
    | none => if indexedName q = nm then some base else none

/-- A concrete Bell-pair program (mirrors the source's `bell_measure` test). -/
def bellModel : SemanticModel :=
  ⟨"bell", [⟨"qr", 0⟩, ⟨"qr", 1⟩], [⟨"qc", 2⟩],
    [.H "qr0", .Cx "qr0" "qr1", .M "qr0" "qc0", .M "qr1" "qc1"]⟩

/-- A concrete model whose two quantum register entries produce the same
indexed name `"q0"`. -/
def dupNameModel : SemanticModel :=
  ⟨"dup", [⟨"q", 0⟩, ⟨"q", 0⟩], [], []⟩

/-- A concrete model whose indexed names are allocated in non-sorted order:
`"q2"` is allocated before `"q10"`, but `"q10"` sorts before `"q2"`. -/
def unsortedNamesModel : SemanticModel :=
  ⟨"uns", [⟨"q", 2⟩, ⟨"q", 10⟩], [], []⟩

/-- A concrete malformed model whose second instruction references the
undeclared qubit name `"q9"`. -/
def badNameModel : SemanticModel :=
  ⟨"bad", [⟨"q", 0⟩], [], [.H "q0", .H "q9", .H "q0"]⟩

theorem charsLt_irrefl (as : List Char) : charsLt as as = false := by
  induction as with
  | nil => rfl
  | cons a as ih => simp [charsLt, ih]

theorem charsLt_cons_iff (a b : Char) (as bs : List Char) :
    charsLt (a :: as) (b :: bs) = true ↔ a < b ∨ (a = b ∧ charsLt as bs = true) := by
  simp only [charsLt]
  by_cases hab : a < b
  · simp [hab]
  · by_cases heq : a = b
    · simp [hab, heq]
    · simp [hab, heq]

theorem charsLt_trans {as bs cs : List Char} (h₁ : charsLt as bs = true)
    (h₂ : charsLt bs cs = true) : charsLt as cs = true := by
  induction as generalizing bs cs with
  | nil =>
    cases bs with
    | nil => simp [charsLt] at h₁
    | cons b bs =>
      cases cs with
      | nil => simp [charsLt] at h₂
      | cons c cs => simp [charsLt]
  | cons a as ih =>
    cases bs with
    | nil => simp [charsLt] at h₁
    | cons b bs =>
      cases cs with
      | nil => simp [charsLt] at h₂
      | cons c cs =>
        rw [charsLt_cons_iff] at h₁ h₂ ⊢
        rcases h₁ with hab | ⟨hab, h₁⟩ <;> rcases h₂ with hbc | ⟨hbc, h₂⟩
        · exact Or.inl (lt_trans hab hbc)
        · exact Or.inl (hbc ▸ hab)
        · exact Or.inl (hab ▸ hbc)
        · exact Or.inr ⟨hab.trans hbc, ih h₁ h₂⟩

theorem charsLt_of_ne {as bs : List Char} (hne : as ≠ bs)
    (h : charsLt as bs = false) : charsLt bs as = true := by
  induction as generalizing bs with
  | nil =>
    cases bs with
    | nil => exact absurd rfl hne
    | cons b bs => simp [charsLt] at h
  | cons a as ih =>
    cases bs with
    | nil => simp [charsLt]
    | cons b bs =>
      rcases lt_trichotomy a b with hlt | heq | hgt
      · exact absurd ((charsLt_cons_iff a b as bs).mpr (Or.inl hlt)) (by simp [h])
      · subst heq
        refine (charsLt_cons_iff a a bs as).mpr (Or.inr ⟨rfl, ih ?_ ?_⟩)
        · intro hh
          exact hne (hh ▸ rfl)
        · cases hcb : charsLt as bs with
          | false => rfl
          | true =>
            exact absurd ((charsLt_cons_iff a a as bs).mpr (Or.inr ⟨rfl, hcb⟩))
              (by simp [h])
      · exact (charsLt_cons_iff b a bs as).mpr (Or.inl hgt)

theorem strLt_irrefl (a : String) : strLt a a = false :=
  charsLt_irrefl a.data

theorem strLt_trans {a b c : String} (h₁ : strLt a b = true)
    (h₂ : strLt b c = true) : strLt a c = true :=
  charsLt_trans h₁ h₂

theorem strLt_of_ne {a b : String} (hne : a ≠ b) (h : strLt a b = false) :
    strLt b a = true := by
  refine charsLt_of_ne ?_ h
  intro hh
  cases a
  cases b
  simp only at hh
  exact hne (hh ▸ rfl)

theorem btreeFind_insert (k k' : String) (v : Nat) (tbl : Table) :
    btreeFind k (btreeInsert k' v tbl) =
      if k = k' then some v else btreeFind k tbl := by
  induction tbl with
  | nil => simp [btreeInsert, btreeFind]
  | cons p rest ih =>
    obtain ⟨k₀, v₀⟩ := p
    simp only [btreeInsert]
    by_cases h₁ : strLt k' k₀ = true
    · by_cases hk : k = k' <;> simp [h₁, btreeFind, hk]
    · by_cases h₂ : k' = k₀
      · subst h₂
        by_cases hk : k = k' <;> simp [h₁, btreeFind, hk]
      · by_cases hk : k = k₀
        · subst hk
          have hkk' : k ≠ k' := fun hh => h₂ (hh ▸ rfl)
          simp [h₁, h₂, btreeFind, hkk', ih]
        · simp [h₁, h₂, btreeFind, hk, ih]

theorem btreeFind_insert_isSome {k : String} {tbl : Table} (k' : String) (v : Nat)
    (h : (btreeFind k tbl).isSome = true) :
    (btreeFind k (btreeInsert k' v tbl)).isSome = true := by
  rw [btreeFind_insert]
  split_ifs with hk
  · rfl
  · exact h

theorem mem_keys_insert {k'' k : String} {v : Nat} {tbl : Table}
    (h : k'' ∈ (btreeInsert k v tbl).map Prod.fst) :
    k'' = k ∨ k'' ∈ tbl.map Prod.fst := by
  induction tbl with
  | nil => simpa [btreeInsert] using h
  | cons p rest ih =>
    obtain ⟨k₀, v₀⟩ := p
    simp only [btreeInsert] at h
    split_ifs at h with h₁ h₂
    · simpa using h
    · subst h₂
      simpa using h
    · simp only [List.map_cons, List.mem_cons] at h
      rcases h with h | h
      · simp [h]
      · rcases ih h with h | h
        · simp [h]
        · simp [h]

theorem mem_values_insert {w : Nat} {k : String} {v : Nat} {tbl : Table}
    (h : w ∈ (btreeInsert k v tbl).map Prod.snd) :
    w = v ∨ w ∈ tbl.map Prod.snd := by
  induction tbl with
  | nil => simpa [btreeInsert] using h
  | cons p rest ih =>
    obtain ⟨k₀, v₀⟩ := p
    simp only [btreeInsert] at h
    split_ifs at h with h₁ h₂
    · simpa using h
    · subst h₂
      simp only [List.map_cons, List.mem_cons] at h
      rcases h with h | h
      · simp [h]
      · simp [h]
    · simp only [List.map_cons, List.mem_cons] at h
      rcases h with h | h
      · simp [h]
      · rcases ih h with h | h
        · simp [h]
        · simp [h]

theorem values_nodup_insert {k : String} {v : Nat} {tbl : Table}
    (hnd : (tbl.map Prod.snd).Nodup) (hlt : ∀ w ∈ tbl.map Prod.snd, w < v) :
    ((btreeInsert k v tbl).map Prod.snd).Nodup := by
  induction tbl with
  | nil => simp [btreeInsert]
  | cons p rest ih =>
    obtain ⟨k₀, v₀⟩ := p
    simp only [List.map_cons, List.nodup_cons] at hnd
    simp only [btreeInsert]
    split_ifs with h₁ h₂
    · simp only [List.map_cons, List.nodup_cons, List.mem_cons]
      refine ⟨?_, hnd.1, hnd.2⟩
      intro h
      rcases h with h | h
      · exact absurd (h ▸ hlt v₀ (by simp)) (lt_irrefl v₀)
      · exact absurd (hlt v (by simp [h])) (lt_irrefl v)
    · simp only [List.map_cons, List.nodup_cons]
      refine ⟨?_, hnd.2⟩
      intro h
      exact absurd (hlt v (by simp [h])) (lt_irrefl v)
    · simp only [List.map_cons, List.nodup_cons]
      constructor
      · intro h
        rcases mem_values_insert h with h | h
        · exact absurd (h ▸ hlt v₀ (by simp)) (lt_irrefl v₀)
        · exact hnd.1 h
      · exact ih hnd.2 (fun w hw => hlt w (by simp [hw]))

/-- Strict ascending key order of a table: the `BTreeMap` iteration order. -/
def keySorted (tbl : Table) : Prop :=
  List.Pairwise (fun p q => strLt p.1 q.1 = true) tbl

theorem keySorted_insert (k : String) (v : Nat) {tbl : Table} (h : keySorted tbl) :
    keySorted (btreeInsert k v tbl) := by
  induction tbl with
  | nil => simp [keySorted, btreeInsert]
  | cons p rest ih =>
    obtain ⟨k₀, v₀⟩ := p
    rw [keySorted, List.pairwise_cons] at h
    obtain ⟨hhead, hrest⟩ := h
    simp only [btreeInsert]
    by_cases h₁ : strLt k k₀ = true
    · rw [if_pos h₁]
      rw [keySorted, List.pairwise_cons]
      refine ⟨?_, ?_⟩
      · intro q hq
        rcases List.mem_cons.mp hq with hq | hq
        · exact hq ▸ h₁
        · exact strLt_trans h₁ (hhead q hq)
      · rw [List.pairwise_cons]
        exact ⟨hhead, hrest⟩
    · rw [if_neg h₁]
      by_cases h₂ : k = k₀
      · rw [if_pos h₂]
        subst h₂
        rw [keySorted, List.pairwise_cons]
        exact ⟨hhead, hrest⟩
      · rw [if_neg h₂]
        rw [keySorted, List.pairwise_cons]
        refine ⟨?_, ih hrest⟩
        intro q hq
        have hqk := List.mem_map_of_mem Prod.fst hq
        rcases mem_keys_insert hqk with hk | hk
        · have hk₀ : strLt k₀ k = true := strLt_of_ne h₂ (by simpa using h₁)
          exact hk ▸ hk₀
        · rcases List.mem_map.mp hk with ⟨q', hq', hq'k⟩
          exact hq'k ▸ hhead q' hq'

theorem btreeInsert_perm {k : String} {tbl : Table} (v : Nat)
    (h : k ∉ tbl.map Prod.fst) : (btreeInsert k v tbl).Perm ((k, v) :: tbl) := by
  induction tbl with
  | nil => simp [btreeInsert]
  | cons p rest ih =>
    obtain ⟨k₀, v₀⟩ := p
    simp only [List.map_cons, List.mem_cons] at h
    push_neg at h
    obtain ⟨hne, hmem⟩ := h
    simp only [btreeInsert]
    by_cases h₁ : strLt k k₀ = true
    · simp only [h₁, if_true]
      exact List.Perm.refl _
    · simp only [h₁, hne, if_false]
      exact ((ih hmem).cons _).trans (List.Perm.swap _ _ _)

theorem writeQubits_next (qs : List QuantumRegister) (tbl : Table) (s : EmitSt) :
    (writeQubits qs tbl s).2.next = s.next + qs.length := by
  induction qs generalizing tbl s with
  | nil => simp [writeQubits]
  | cons q rest ih =>
    simp only [writeQubits, allocateQubit]
    rw [ih]
    simp only [List.length_cons]
    omega

theorem writeQubits_trace (qs : List QuantumRegister) (tbl : Table) (s : EmitSt) :
    (writeQubits qs tbl s).2.trace = s.trace ++ allocOps qs s.next := by
  induction qs generalizing tbl s with
  | nil => simp [writeQubits, allocOps]
  | cons q rest ih =>
    simp only [writeQubits, allocateQubit]
    rw [ih]
    simp [allocOps]

theorem writeQubits_keySorted (qs : List QuantumRegister) (tbl : Table)
    (s : EmitSt) (h : keySorted tbl) : keySorted (writeQubits qs tbl s).1 := by
  induction qs generalizing tbl s with
  | nil => exact h
  | cons q rest ih =>
    simp only [writeQubits, allocateQubit]
    exact ih _ _ (keySorted_insert _ _ h)

theorem writeQubits_values_nodup (qs : List QuantumRegister) (tbl : Table)
    (s : EmitSt) (hnd : (tbl.map Prod.snd).Nodup)
    (hlt : ∀ w ∈ tbl.map Prod.snd, w < s.next) :
    ((writeQubits qs tbl s).1.map Prod.snd).Nodup := by
  induction qs generalizing tbl s with
  | nil => exact hnd
  | cons q rest ih =>
    simp only [writeQubits, allocateQubit]
    refine ih _ _ (values_nodup_insert hnd hlt) ?_
    intro w hw
    rcases mem_values_insert hw with h | h
    · exact h ▸ Nat.lt_succ_self s.next
    · exact Nat.lt_succ_of_lt (hlt w h)

theorem writeQubits_values_perm (qs : List QuantumRegister) (tbl : Table)
    (s : EmitSt) (hfresh : ∀ q ∈ qs, indexedName q ∉ tbl.map Prod.fst)
    (hnd : (qs.map indexedName).Nodup) :
    ((writeQubits qs tbl s).1.map Prod.snd).Perm
      (tbl.map Prod.snd ++ List.range' s.next qs.length) := by
  induction qs generalizing tbl s with
  | nil => simp [writeQubits]
  | cons q rest ih =>
    simp only [writeQubits, allocateQubit]
    simp only [List.map_cons, List.nodup_cons] at hnd
    have hq := hfresh q (List.mem_cons_self q rest)
    have hfresh2 : ∀ q' ∈ rest,
        indexedName q' ∉ (btreeInsert (indexedName q) s.next tbl).map Prod.fst := by
      intro q' hq' hmem
      rcases mem_keys_insert hmem with h | h
      · exact hnd.1 (h ▸ List.mem_map_of_mem indexedName hq')
      · exact hfresh q' (List.mem_cons_of_mem q hq') h
    have hstep := ih (btreeInsert (indexedName q) s.next tbl)
      ⟨s.next + 1, s.trace ++ [IROp.allocateQubit (indexedName q) s.next]⟩ hfresh2 hnd.2
    refine hstep.trans ?_
    have h2 : ((btreeInsert (indexedName q) s.next tbl).map Prod.snd).Perm
        (s.next :: tbl.map Prod.snd) := (btreeInsert_perm s.next hq).map Prod.snd
    refine (h2.append_right _).trans ?_
    have h3 : List.range' s.next (q :: rest).length =
        s.next :: List.range' (s.next + 1) rest.length := by
      simp [List.range']
    rw [h3, List.cons_append]
    exact List.perm_middle.symm

theorem writeSubRegisters_next (regs : List ClassicalRegister) (tbl : Table)
    (s : EmitSt) : (writeSubRegisters regs tbl s).2.2.next = s.next + regs.length := by
  induction regs generalizing tbl s with
  | nil => simp [writeSubRegisters]
  | cons r rest ih =>
    simp only [writeSubRegisters]
    rw [ih]
    simp only [List.length_cons]
    omega

theorem writeSubRegisters_subs (regs : List ClassicalRegister) (tbl : Table)
    (s : EmitSt) : (writeSubRegisters regs tbl s).2.1 = List.range' s.next regs.length := by
  induction regs generalizing tbl s with
  | nil => simp [writeSubRegisters]
  | cons r rest ih =>
    simp only [writeSubRegisters, List.length_cons]
    rw [ih]
    simp [List.range']

theorem writeSubRegisters_trace (regs : List ClassicalRegister) (tbl : Table)
    (s : EmitSt) :
    (writeSubRegisters regs tbl s).2.2.trace = s.trace ++ subAllocOps regs s.next := by
  induction regs generalizing tbl s with
  | nil => simp [writeSubRegisters, subAllocOps]
  | cons r rest ih =>
    simp only [writeSubRegisters]
    rw [ih]
    simp [subAllocOps]

theorem writeSubRegisters_find_mono {k : String} (regs : List ClassicalRegister)
    (tbl : Table) (s : EmitSt) (h : (btreeFind k tbl).isSome = true) :
    (btreeFind k (writeSubRegisters regs tbl s).1).isSome = true := by
  induction regs generalizing tbl s with
  | nil => exact h
  | cons r rest ih =>
    simp only [writeSubRegisters]
    exact ih _ _ (btreeFind_insert_isSome _ _ h)

theorem writeSubRegisters_find_reg (regs : List ClassicalRegister) :
    ∀ (tbl : Table) (s : EmitSt), ∀ r ∈ regs,
      (btreeFind r.name (writeSubRegisters regs tbl s).1).isSome = true := by
  induction regs with
  | nil =>
    intro tbl s r hr
    cases hr
  | cons r₀ rest ih =>
    intro tbl s r hr
    simp only [writeSubRegisters]
    rcases List.mem_cons.mp hr with h | h
    · subst h
      refine writeSubRegisters_find_mono rest _ _ ?_
      rw [btreeFind_insert]
      simp
    · exact ih _ _ r h

theorem enumFrom_range'_setOps (arr : Nat) :
    ∀ (n j b : Nat), (List.enumFrom j (List.range' b n)).map
      (fun p => IROp.setElement arr p.1 p.2) = setOps arr j b n := by
  intro n
  induction n with
  | zero =>
    intro j b
    rfl
  | succ n ih =>
    intro j b
    simp only [List.range', List.enumFrom, List.map_cons, setOps]
    rw [ih]

theorem writeRegisters_trace_pos (regs : List ClassicalRegister) (s : EmitSt)
    (h : regs ≠ []) :
    (writeRegisters regs s).2.trace =
      s.trace ++ IROp.arrayAlloc1d 8 regs.length "results" s.next
        :: (subAllocOps regs (s.next + 1) ++ setOps s.next 0 (s.next + 1) regs.length) := by
  have hlen : 0 < regs.length := List.length_pos.mpr h
  simp only [writeRegisters]
  rw [if_pos hlen]
  simp only [setElements, writeSubRegisters_trace, writeSubRegisters_subs, List.enum]
  rw [enumFrom_range'_setOps]
  simp [writeSubRegisters_next]

theorem writeRegisters_trace_nil (s : EmitSt) :
    (writeRegisters [] s).2.trace = s.trace ++ [IROp.emptyArrayAlloc "results" s.next] := by
  simp [writeRegisters]

theorem writeRegisters_find_results (regs : List ClassicalRegister) (s : EmitSt) :
    (btreeFind "results" (writeRegisters regs s).1).isSome = true := by
  by_cases h : 0 < regs.length
  · simp only [writeRegisters]
    rw [if_pos h]
    refine writeSubRegisters_find_mono _ _ _ ?_
    rw [btreeFind_insert]
    simp
  · simp only [writeRegisters]
    rw [if_neg h]
    rw [btreeFind_insert]
    simp

theorem writeRegisters_find_reg (regs : List ClassicalRegister) (s : EmitSt)
    {r : ClassicalRegister} (hr : r ∈ regs) :
    (btreeFind r.name (writeRegisters regs s).1).isSome = true := by
  have h : 0 < regs.length := by
    rw [List.length_pos]
    rintro rfl
    cases hr
  simp only [writeRegisters]
  rw [if_pos h]
  exact writeSubRegisters_find_reg _ _ _ r hr

theorem writeInstructions_all_ok (qtbl : Table) (targets : List String)
    (insts : List Instruction)
    (h : ∀ inst ∈ insts, (emitInstruction qtbl targets inst).isSome = true) :
    writeInstructions qtbl targets insts =
      ((insts.map (fun inst => (emitInstruction qtbl targets inst).getD [])).flatten,
        true) := by
  induction insts with
  | nil => rfl
  | cons inst rest ih =>
    have h0 := h inst (List.mem_cons_self _ _)
    rcases ho : emitInstruction qtbl targets inst with _ | ops
    · rw [ho] at h0
      simp at h0
    · simp only [writeInstructions, ho]
      rw [ih (fun i hi => h i (List.mem_cons_of_mem _ hi))]
      simp [ho]

theorem writeInstructions_abort (qtbl : Table) (targets : List String) :
    ∀ (insts : List Instruction) (i : Nat) (hi : i < insts.length),
      emitInstruction qtbl targets (insts.get ⟨i, hi⟩) = none →
      (∀ j (hj : j < i),
        (emitInstruction qtbl targets
          (insts.get ⟨j, Nat.lt_trans hj hi⟩)).isSome = true) →
      writeInstructions qtbl targets insts =
        (((insts.take i).map
          (fun inst => (emitInstruction qtbl targets inst).getD [])).flatten, false) := by
  intro insts
  induction insts with
  | nil =>
    intro i hi
    cases hi
  | cons inst rest ih =>
    intro i hi hfail hok
    cases i with
    | zero =>
      simp only [List.get] at hfail
      simp [writeInstructions, hfail]
    | succ i =>
      have h0 := hok 0 (Nat.succ_pos i)
      simp only [List.get] at h0 hfail
      rcases ho : emitInstruction qtbl targets inst with _ | ops
      · rw [ho] at h0
        simp at h0
      · simp only [writeInstructions, ho]
        rw [ih i (Nat.lt_of_succ_lt_succ hi) hfail
          (fun j hj => hok (j + 1) (Nat.succ_lt_succ hj))]
        simp [ho]

theorem allocatedHandles_append (t₁ t₂ : List IROp) :
    allocatedHandles (t₁ ++ t₂) = allocatedHandles t₁ ++ allocatedHandles t₂ := by
  simp [allocatedHandles, List.filterMap_append]

theorem releasedHandles_append (t₁ t₂ : List IROp) :
    releasedHandles (t₁ ++ t₂) = releasedHandles t₁ ++ releasedHandles t₂ := by
  simp [releasedHandles, List.filterMap_append]

theorem allocatedHandles_allocOps (qs : List QuantumRegister) (b : Nat) :
    allocatedHandles (allocOps qs b) = List.range' b qs.length := by
  induction qs generalizing b with
  | nil => rfl
  | cons q rest ih =>
    simp only [allocOps, allocatedHandles, List.filterMap_cons, List.length_cons,
      List.range']
    rw [← allocatedHandles, ih]

theorem releasedHandles_allocOps (qs : List QuantumRegister) (b : Nat) :
    releasedHandles (allocOps qs b) = [] := by
  induction qs generalizing b with
  | nil => rfl
  | cons q rest ih =>
    simp only [allocOps, releasedHandles, List.filterMap_cons]
    rw [← releasedHandles, ih]

theorem releasedHandles_releases (tbl : Table) :
    releasedHandles (tbl.map (fun p => IROp.releaseQubit p.2)) = tbl.map Prod.snd := by
  induction tbl with
  | nil => rfl
  | cons p rest ih =>
    simp only [List.map_cons, releasedHandles, List.filterMap_cons]
    rw [← releasedHandles, ih]

theorem writeQubits_find_last (nm : String) (qs : List QuantumRegister) :
    ∀ (tbl : Table) (s : EmitSt),
      btreeFind nm (writeQubits qs tbl s).1 =
        match findLastAlloc nm qs s.next with
        | some h => some h
        | none => btreeFind nm tbl := by
  induction qs with
  | nil =>
    intro tbl s
    rfl
  | cons q rest ih =>
    intro tbl s
    simp only [writeQubits, allocateQubit]
    rw [ih]
    simp only [findLastAlloc]
    cases hfl : findLastAlloc nm rest (s.next + 1) with
    | some h => simp [hfl]
    | none =>
      rw [btreeFind_insert]
      by_cases hq : nm = indexedName q
      · simp [hfl, hq]
      · have hq' : indexedName q ≠ nm := fun hh => hq hh.symm
        simp [hfl, hq, hq']

theorem findLastAlloc_none (nm : String) (qs : List QuantumRegister) :
    ∀ (base : Nat), (∀ q ∈ qs, indexedName q ≠ nm) →
      findLastAlloc nm qs base = none := by
  induction qs with
  | nil =>
    intro base _
    rfl
  | cons q rest ih =>
    intro base h
    simp only [findLastAlloc]
    rw [ih (base + 1) (fun q' hq' => h q' (List.mem_cons_of_mem _ hq'))]
    simp [h q (List.mem_cons_self _ _)]

theorem findLastAlloc_last (nm : String) (qs : List QuantumRegister) :
    ∀ (base j : Nat) (hj : j < qs.length),
      indexedName (qs.get ⟨j, hj⟩) = nm →
      (∀ l (hl : l < qs.length), j < l → indexedName (qs.get ⟨l, hl⟩) ≠ nm) →
      findLastAlloc nm qs base = some (base + j) := by
  induction qs with
  | nil =>
    intro base j hj
    cases hj
  | cons q rest ih =>
    intro base j hj hname hlast
    cases j with
    | zero =>
      simp only [List.get] at hname
      have hnone : findLastAlloc nm rest (base + 1) = none := by
        refine findLastAlloc_none nm rest (base + 1) ?_
        intro q' hq'
        rcases List.mem_iff_get.mp hq' with ⟨⟨l, hl⟩, hget⟩
        have hne := hlast (l + 1) (Nat.succ_lt_succ hl) (Nat.succ_pos l)
        simp only [List.get] at hne
        exact hget ▸ hne
      simp [findLastAlloc, hnone, hname]
    | succ j =>
      have hj' : j < rest.length := Nat.lt_of_succ_lt_succ hj
      have hname' : indexedName (rest.get ⟨j, hj'⟩) = nm := hname
      have hlast' : ∀ l (hl : l < rest.length), j < l →
          indexedName (rest.get ⟨l, hl⟩) ≠ nm := by
        intro l hl hjl
        exact hlast (l + 1) (Nat.succ_lt_succ hl) (Nat.succ_lt_succ hjl)
      simp only [findLastAlloc]
      have harith : base + 1 + j = base + (j + 1) := by omega
      rw [ih (base + 1) j hj' hname' hlast', harith]

theorem qubitsPhase_trace (m : SemanticModel) :
    (qubitsPhase m).2.trace = allocOps m.qubits 0 := by
  simp only [qubitsPhase]
  rw [writeQubits_trace]
  simp [initSt]

/-- Claim C1: for a model with at least one classical register, the register
phase emits the top-level `"results"` array allocation with element size 8
and exactly one slot per classical register, then the per-register sub-array
allocations in model declaration order (handles `s.next + 1 + i`), then the
element stores setting element `i` of the top-level array to the sub-array
allocated for classical register `i`. -/
theorem c1_results_array_layout (regs : List ClassicalRegister) (s : EmitSt)
    (h : regs ≠ []) :
    (writeRegisters regs s).2.trace =
      s.trace ++ IROp.arrayAlloc1d 8 regs.length "results" s.next
        :: (subAllocOps regs (s.next + 1) ++
          setOps s.next 0 (s.next + 1) regs.length) :=
  writeRegisters_trace_pos regs s h

theorem c1_results_array_layout_witness :
    (writeRegisters [⟨"c", 2⟩, ⟨"d", 3⟩] initSt).2.trace =
      initSt.trace ++ IROp.arrayAlloc1d 8
          ([⟨"c", 2⟩, ⟨"d", 3⟩] : List ClassicalRegister).length "results" initSt.next
        :: (subAllocOps [⟨"c", 2⟩, ⟨"d", 3⟩] (initSt.next + 1) ++
          setOps initSt.next 0 (initSt.next + 1)
            ([⟨"c", 2⟩, ⟨"d", 3⟩] : List ClassicalRegister).length) :=
  c1_results_array_layout [⟨"c", 2⟩, ⟨"d", 3⟩] initSt (by decide)

/-- Claim C2 counterexample: in a model where two quantum register entries
produce the same indexed name, TWO allocation calls are emitted (handle 0
and handle 1) but the table keeps only the later handle, so handle 0 is
allocated yet never released — refuting "a release call is emitted for
every qubit that was allocated". -/
theorem c2_release_counterexample :
    IROp.allocateQubit "q0" 0 ∈ outcomeTrace (emitTrace dupNameModel) ∧
    0 ∉ releasedHandles (outcomeTrace (emitTrace dupNameModel)) := by
  decide

/-- Claim C2 (amended): no qubit handle is ever released more than once
(the release list is duplicate-free, also with duplicate indexed names);
and when all indexed names are distinct the released handles are a
permutation of the allocated handles, i.e. every allocated qubit is
released exactly once. -/
theorem c2_release_calls (m : SemanticModel) :
    (releasedHandles (freeQubits (qubitsPhase m).1 (qubitsPhase m).2).trace).Nodup ∧
    ((m.qubits.map indexedName).Nodup →
      (releasedHandles (freeQubits (qubitsPhase m).1 (qubitsPhase m).2).trace).Perm
        (allocatedHandles (qubitsPhase m).2.trace)) := by
  have hrel : releasedHandles (freeQubits (qubitsPhase m).1 (qubitsPhase m).2).trace
      = (qubitsPhase m).1.map Prod.snd := by
    simp only [freeQubits]
    rw [releasedHandles_append, releasedHandles_releases, qubitsPhase_trace,
      releasedHandles_allocOps]
    simp
  constructor
  · rw [hrel]
    simp only [qubitsPhase]
    exact writeQubits_values_nodup m.qubits [] initSt (by simp) (by simp)
  · intro hnd
    rw [hrel, qubitsPhase_trace, allocatedHandles_allocOps]
    simp only [qubitsPhase]
    have hperm := writeQubits_values_perm m.qubits [] initSt (by simp) hnd
    simpa [initSt] using hperm

theorem c2_release_calls_witness :
    (releasedHandles
      (freeQubits (qubitsPhase bellModel).1 (qubitsPhase bellModel).2).trace).Perm
      (allocatedHandles (qubitsPhase bellModel).2.trace) :=
  (c2_release_calls bellModel).2 (by decide)

/-- Claim C3 counterexample: with quantum registers `("q", 2)` then
`("q", 10)`, qubits are allocated in model order (handles `[0, 1]`) but
released in the `BTreeMap`'s sorted key order `"q10" < "q2"`, i.e.
`[1, 0]` — the release order differs from the allocation order. -/
theorem c3_release_order_counterexample :
    allocatedHandles (outcomeTrace (emitTrace unsortedNamesModel)) = [0, 1] ∧
    releasedHandles (outcomeTrace (emitTrace unsortedNamesModel)) = [1, 0] ∧
    releasedHandles (outcomeTrace (emitTrace unsortedNamesModel)) ≠
      allocatedHandles (outcomeTrace (emitTrace unsortedNamesModel)) := by
  decide

/-- Claim C3 (amended): the qubit table is strictly sorted in the
`BTreeMap` key order of the indexed names, and teardown emits exactly one
release per table entry in that sorted-key iteration order (NOT in
insertion/model order, with which it coincides only when the indexed names
happen to be allocated in ascending order). -/
theorem c3_release_in_sorted_key_order (m : SemanticModel) :
    keySorted (qubitsPhase m).1 ∧
    (freeQubits (qubitsPhase m).1 (qubitsPhase m).2).trace =
      (qubitsPhase m).2.trace ++
        (qubitsPhase m).1.map (fun p => IROp.releaseQubit p.2) := by
  constructor
  · simp only [qubitsPhase]
    exact writeQubits_keySorted m.qubits [] initSt (by simp [keySorted])
  · rfl

/-- Claim C4: when every instruction resolves, the instruction phase emits
exactly the concatenation of the per-instruction call sequences, one block
per instruction, in model order — no reordering, skipping, or
elimination. -/
theorem c4_instructions_model_order (m : SemanticModel)
    (h : ∀ inst ∈ m.instructions,
      (emitInstruction (qubitsPhase m).1 (classicalBitNames m.registers)
        inst).isSome = true) :
    writeInstructions (qubitsPhase m).1 (classicalBitNames m.registers)
        m.instructions =
      ((m.instructions.map (instructionOps m)).flatten, true) := by
  have hall := writeInstructions_all_ok (qubitsPhase m).1
    (classicalBitNames m.registers) m.instructions h
  simpa [instructionOps] using hall

theorem c4_instructions_model_order_witness :
    writeInstructions (qubitsPhase bellModel).1
        (classicalBitNames bellModel.registers) bellModel.instructions =
      ((bellModel.instructions.map (instructionOps bellModel)).flatten, true) :=
  c4_instructions_model_order bellModel (by decide)

/-- Claim C5: the emitted module contents (program name and IR body) are a
pure function of the model — emitting one model to two different output
paths yields identical module contents. -/
theorem c5_module_pure_function (m : SemanticModel) (p₁ p₂ : String) :
    (write m p₁).map Prod.snd = (write m p₂).map Prod.snd := by
  simp only [write]
  cases h : emitTrace m <;> simp

/-- Claim C6: if instruction `i` fails name resolution and all earlier
instructions resolve, emission aborts with a name-resolution failure whose
trace ends after the calls of instructions `0..i-1` — no later
instruction's IR is emitted, and the failing instruction is not silently
skipped. -/
theorem c6_name_resolution_abort (m : SemanticModel) (i : Nat)
    (hi : i < m.instructions.length)
    (hfail : emitInstruction (qubitsPhase m).1 (classicalBitNames m.registers)
      (m.instructions.get ⟨i, hi⟩) = none)
    (hok : ∀ j (hj : j < i),
      (emitInstruction (qubitsPhase m).1 (classicalBitNames m.registers)
        (m.instructions.get ⟨j, Nat.lt_trans hj hi⟩)).isSome = true) :
    emitTrace m = .nameResolutionFailure
      ((registersPhase m).2.trace ++
        ((m.instructions.take i).map (instructionOps m)).flatten) := by
  have habort : writeInstructions (qubitsPhase m).1 (classicalBitNames m.registers)
      m.instructions =
      (((m.instructions.take i).map (instructionOps m)).flatten, false) :=
    writeInstructions_abort (qubitsPhase m).1
      (classicalBitNames m.registers) m.instructions i hi hfail hok
  simp only [emitTrace, habort]
  simp

theorem c6_name_resolution_abort_witness :
    emitTrace badNameModel = .nameResolutionFailure
      ((registersPhase badNameModel).2.trace ++
        ((badNameModel.instructions.take 1).map
          (instructionOps badNameModel)).flatten) :=
  c6_name_resolution_abort badNameModel 1 (by decide) (by decide)
    (by
      intro j hj
      have hj0 : j = 0 := by omega
      subst hj0
      show (emitInstruction (qubitsPhase badNameModel).1
        (classicalBitNames badNameModel.registers)
        (badNameModel.instructions.get ⟨0, by decide⟩)).isSome = true
      decide)

/-- Claim C7: when several quantum register entries produce the same indexed
name, allocation completes and the allocator table deterministically maps
the name to the handle of the LAST such entry (the later entry overwrote the
earlier one); no resolution crash occurs. -/
theorem c7_duplicate_name_overwrite (qs : List QuantumRegister) (s : EmitSt)
    (i j : Nat) (hij : i < j) (hj : j < qs.length)
    (_hdup : indexedName (qs.get ⟨i, Nat.lt_trans hij hj⟩) =
      indexedName (qs.get ⟨j, hj⟩))
    (hlast : ∀ l (hl : l < qs.length), j < l →
      indexedName (qs.get ⟨l, hl⟩) ≠ indexedName (qs.get ⟨j, hj⟩)) :
    btreeFind (indexedName (qs.get ⟨j, hj⟩)) (writeQubits qs [] s).1 =
      some (s.next + j) := by
  rw [writeQubits_find_last,
    findLastAlloc_last (indexedName (qs.get ⟨j, hj⟩)) qs s.next j hj rfl hlast]

theorem c7_duplicate_name_overwrite_witness :
    btreeFind
      (indexedName (([⟨"q", 0⟩, ⟨"q", 0⟩] : List QuantumRegister).get ⟨1, by decide⟩))
      (writeQubits [⟨"q", 0⟩, ⟨"q", 0⟩] [] initSt).1 = some (initSt.next + 1) :=
  c7_duplicate_name_overwrite [⟨"q", 0⟩, ⟨"q", 0⟩] initSt 0 1 (by decide) (by decide)
    (by decide)
    (by
      intro l hl h
      simp only [List.length_cons, List.length_nil] at hl
      omega)

/-- Claim C8 counterexample: with exactly ONE classical register named
`"c"` (not "multiple"), the register table still contains an entry for
`"c"` in addition to `"results"` — refuting "only when multiple classical
registers exist". -/
theorem c8_single_register_entry_counterexample :
    ([⟨"c", 2⟩] : List ClassicalRegister).length = 1 ∧
    (btreeFind "c" (writeRegisters [⟨"c", 2⟩] initSt).1).isSome = true := by
  decide

/-- Claim C8 (amended): the register table always contains a `"results"`
entry, and contains an additional entry per classical register name
whenever at least one classical register exists (including the
single-register case). -/
theorem c8_register_table_entries (regs : List ClassicalRegister) (s : EmitSt) :
    (btreeFind "results" (writeRegisters regs s).1).isSome = true ∧
    ∀ r ∈ regs, (btreeFind r.name (writeRegisters regs s).1).isSome = true :=
  ⟨writeRegisters_find_results regs s,
    fun _ hr => writeRegisters_find_reg regs s hr⟩

theorem c8_register_table_entries_witness :
    (btreeFind "results" (writeRegisters [⟨"c", 2⟩] initSt).1).isSome = true ∧
    (btreeFind (ClassicalRegister.mk "c" 2).name
      (writeRegisters [⟨"c", 2⟩] initSt).1).isSome = true :=
  ⟨(c8_register_table_entries [⟨"c", 2⟩] initSt).1,
    (c8_register_table_entries [⟨"c", 2⟩] initSt).2 ⟨"c", 2⟩ (by decide)⟩

/-- Claim C9: for every model the `"results"` entry is present in the
register table, so the orchestrator's `registers.get("results").unwrap()`
never fails — the `resultsMissing` abort is unreachable. -/
theorem c9_results_lookup_never_fails (m : SemanticModel) :
    isResultsMissing (emitTrace m) = false := by
  have hres : (btreeFind "results" (registersPhase m).1).isSome = true := by
    simp only [registersPhase]
    exact writeRegisters_find_results m.registers (qubitsPhase m).2
  simp only [emitTrace]
  rcases hfind : btreeFind "results" (registersPhase m).1 with _ | v
  · rw [hfind] at hres
    simp at hres
  · cases hok : (writeInstructions (qubitsPhase m).1 (classicalBitNames m.registers)
      m.instructions).2
    · simp [hok, isResultsMissing]
    · simp [hok, hfind, isResultsMissing]

/-- Claim C10: with zero classical registers the register phase emits
exactly one allocation, the empty result array named `"results"`, whose
length is zero. -/
theorem c10_empty_results_array (s : EmitSt) :
    (writeRegisters [] s).2.trace =
      s.trace ++ [IROp.emptyArrayAlloc "results" s.next] ∧
    allocLength (IROp.emptyArrayAlloc "results" s.next) = some 0 :=
  ⟨writeRegisters_trace_nil s, rfl⟩

end QirEmit
